import Mathlib

/-!
Verification development for the SAXS scattering-intensity engine
(`src/isdb/SAXS.cpp`).  The C++ code is shallowly embedded: `double`
arithmetic is modelled by `ℝ` (and by `ℚ` where the code is pure
bookkeeping), loops with independent accumulations become `Finset` sums,
and the IEEE special values produced by unguarded divisions are modelled
by a dedicated small value type `FP` over `ℚ`.
-/

set_option maxHeartbeats 1000000

namespace SAXS

noncomputable section

/-- 3-component real vector, mirroring `PLMD::Vector` (`diff[0..2]` ↦ `x,y,z`). -/
structure Vec where
  x : ℝ
  y : ℝ
  z : ℝ

def Vec.add (a b : Vec) : Vec := ⟨a.x + b.x, a.y + b.y, a.z + b.z⟩

def Vec.neg (a : Vec) : Vec := ⟨-a.x, -a.y, -a.z⟩

/-- `atom_coord2 - atom_coord1` componentwise, as in `PLMD::Vector::operator-`. -/
def Vec.sub (a b : Vec) : Vec := ⟨a.x - b.x, a.y - b.y, a.z - b.z⟩

def Vec.zero : Vec := ⟨0, 0, 0⟩

/-- scalar times vector, as in `q_vec[k]*tsq` etc. -/
def Vec.smul (c : ℝ) (a : Vec) : Vec := ⟨c * a.x, c * a.y, c * a.z⟩

/-- `PLMD::dotProduct`. -/
def Vec.dot (a b : Vec) : ℝ := a.x * b.x + a.y * b.y + a.z * b.z

/-- `PLMD::Vector::modulo`, the Euclidean norm. -/
def Vec.modulo (a : Vec) : ℝ := Real.sqrt (a.x * a.x + a.y * a.y + a.z * a.z)

instance : Zero Vec := ⟨Vec.zero⟩

instance : Add Vec := ⟨Vec.add⟩

instance : Neg Vec := ⟨Vec.neg⟩

instance : AddCommGroup Vec where
  add_assoc a b c := by
    show Vec.add (Vec.add a b) c = Vec.add a (Vec.add b c)
    cases a; cases b; cases c
    simp only [Vec.add, Vec.mk.injEq]
    refine ⟨by ring, by ring, by ring⟩
  zero_add a := by
    show Vec.add Vec.zero a = a
    cases a
    simp [Vec.add, Vec.zero]
  add_zero a := by
    show Vec.add a Vec.zero = a
    cases a
    simp [Vec.add, Vec.zero]
  add_comm a b := by
    show Vec.add a b = Vec.add b a
    cases a; cases b
    simp only [Vec.add, Vec.mk.injEq]
    refine ⟨by ring, by ring, by ring⟩
  neg_add_cancel a := by
    show Vec.add (Vec.neg a) a = Vec.zero
    cases a
    simp only [Vec.add, Vec.neg, Vec.zero, Vec.mk.injEq]
    refine ⟨by ring, by ring, by ring⟩
  nsmul := nsmulRec
  zsmul := zsmulRec

/-- the simulation cell, mirroring `PLMD::Tensor Box` with rows
`Box0 = Box[0][·]`, `Box1 = Box[1][·]`, `Box2 = Box[2][·]`. -/
structure Box3 where
  r0 : Vec
  r1 : Vec
  r2 : Vec

/-- reduction along the third lattice vector:
`diff - Box2*floor(diff[2]/Box[2][2]+0.5)` (real-number semantics;
in Lean `x / 0 = 0`, the IEEE behaviour of this division is modelled
separately by `getDeltaPeriodicFP`). -/
def reduce2 (box : Box3) (d : Vec) : Vec :=
  Vec.sub d (Vec.smul ((⌊d.z / box.r2.z + 1/2⌋ : ℤ) : ℝ) box.r2)

/-- reduction along the second lattice vector:
`diff - Box1*floor(diff[1]/Box[1][1]+0.5)`. -/
def reduce1 (box : Box3) (d : Vec) : Vec :=
  Vec.sub d (Vec.smul ((⌊d.y / box.r1.y + 1/2⌋ : ℤ) : ℝ) box.r1)

/-- reduction along the first lattice vector:
`diff - Box0*floor(diff[0]/Box[0][0]+0.5)`. -/
def reduce0 (box : Box3) (d : Vec) : Vec :=
  Vec.sub d (Vec.smul ((⌊d.x / box.r0.x + 1/2⌋ : ℤ) : ℝ) box.r0)

/-- `SAXS::getDeltaPeriodic`: difference vector `atom_coord2 - atom_coord1`
reduced along the box rows in the source's fixed order: third, then second,
then first lattice vector. -/
def getDeltaPeriodic (box : Box3) (a1 a2 : Vec) : Vec :=
  reduce0 box (reduce1 box (reduce2 box (Vec.sub a2 a1)))

/-! ## Exact (Debye) path, plain branch of `SAXS::calculate_cpu`

The `direct` computation for one scattering vector `q_vec[k]`.  Atom
positions are `pos`, the per-atom amplitudes `FF_value[k][·]` are `FF`.
The MPI decomposition of the loops
`for (i=rank; i<size; i+=stride) for (j=rank; j<size; j++)` is kept:
rank `r` owns the outer indices `i ≡ r (mod stride)` and, as in the
source, its inner loop runs over `j ∈ [rank, size)`.  The final
`comm.Sum` is the sum over all ranks. -/

/-- `dotProduct(q_vec[k], c_dist[i*size+j])` with
`c_dist[i*size+j] = getDeltaPeriodic(pos[i], pos[j])`. -/
def qdist (box : Box3) (pos : ℕ → Vec) (qv : Vec) (i j : ℕ) : ℝ :=
  Vec.dot qv (getDeltaPeriodic box (pos i) (pos j))

/-- the intensity contribution `tcq = FF[i]*FF[j]*cos(qdist)` of one ordered pair. -/
def tcqTerm (box : Box3) (pos : ℕ → Vec) (FF : ℕ → ℝ) (qv : Vec) (i j : ℕ) : ℝ :=
  FF i * FF j * Real.cos (qdist box pos qv i j)

/-- the derivative contribution `dd = -1*q_vec[k]*(FF[i]*FF[j]*sin(qdist))`
of one ordered pair, added to `deriv[kdx+j]`. -/
def ddTerm (box : Box3) (pos : ℕ → Vec) (FF : ℕ → ℝ) (qv : Vec) (i j : ℕ) : Vec :=
  Vec.smul (-(FF i * FF j * Real.sin (qdist box pos qv i j))) qv

/-- the outer-loop indices owned by rank `r`: `i = r, r+stride, r+2*stride, ...`. -/
def rankRow (n stride r : ℕ) : Finset ℕ :=
  (Finset.range n).filter (fun i => i % stride = r)

/-- rank `r`'s partial intensity sum `sum[k]`: outer loop `i` over its cyclic
slice, inner loop `j` over `[rank, size)` exactly as in the source. -/
def debyeSumRank (box : Box3) (pos : ℕ → Vec) (FF : ℕ → ℝ) (qv : Vec)
    (n stride r : ℕ) : ℝ :=
  ∑ i in rankRow n stride r, ∑ j in Finset.Ico r n, tcqTerm box pos FF qv i j

/-- the reduced (`comm.Sum`) intensity over all `stride` ranks. -/
def debyeSumPar (box : Box3) (pos : ℕ → Vec) (FF : ℕ → ℝ) (qv : Vec)
    (n stride : ℕ) : ℝ :=
  ∑ r in Finset.range stride, debyeSumRank box pos FF qv n stride r

/-- rank `r`'s partial derivative buffer entry for atom `a`:
`deriv[kdx+j] += dd` inside the inner loop and `deriv[kdx+i] -= dsum`
after it, with `dsum` the inner-loop accumulation. -/
def debyeDerivRank (box : Box3) (pos : ℕ → Vec) (FF : ℕ → ℝ) (qv : Vec)
    (n stride r a : ℕ) : Vec :=
  (∑ i in rankRow n stride r,
      if a ∈ Finset.Ico r n then ddTerm box pos FF qv i a else 0)
  - (if a ∈ rankRow n stride r then ∑ j in Finset.Ico r n, ddTerm box pos FF qv a j else 0)

/-- the reduced (`comm.Sum`) derivative buffer entry for atom `a`. -/
def debyeDerivPar (box : Box3) (pos : ℕ → Vec) (FF : ℕ → ℝ) (qv : Vec)
    (n stride a : ℕ) : Vec :=
  ∑ r in Finset.range stride, debyeDerivRank box pos FF qv n stride r a

/-! ## Interface (Fermi-Dirac taper) branch of `SAXS::calculate_cpu`

`calculate_cpu` sets `bool interface=1`, so the `direct` computation that
actually executes is this branch: atoms are pre-filtered by
`sort_coordinates` to those with `z < zmax`, every pair term is damped by
the logistic factors `1/(fdfactor+1)`, and an extra taper-derivative term
`2*dfdsum*fdfactori/(fdfactori+1)` is added to the outer atom.  Modelled
in serial execution (`SERIAL`: `stride=1`, `rank=0`, full loop ranges);
the `float` cast of the z coordinate in `sort_coordinates` is modelled as
the exact real value. -/

/-- `z0 = 0.8`. -/
def z0c : ℝ := 0.8

/-- `BF = 0.05`. -/
def BFc : ℝ := 0.05

/-- `SF = 0.001`. -/
def SFc : ℝ := 0.001

/-- `zmax = BF*std::log(1/SF-1)+z0`. -/
def zmaxc : ℝ := BFc * Real.log (1 / SFc - 1) + z0c

/-- `fdfactor = exp((z_coord-z0)/BF)`. -/
def fdf (pos : ℕ → Vec) (i : ℕ) : ℝ := Real.exp (((pos i).z - z0c) / BFc)

open scoped Classical in
/-- `sort_coordinates`: the original atom indices kept, in order — those
with `z < zmax` (`sorted_atom`). -/
def interKept (n : ℕ) (pos : ℕ → Vec) : List ℕ :=
  (List.range n).filter (fun i => decide ((pos i).z < zmaxc))

/-- `fdtcq = FF[i]*FF[j]*cos(qdist)/(fdfactori+1.0)/(fdfactorj+1.0)`. -/
def fdtcq (box : Box3) (pos : ℕ → Vec) (FF : ℕ → ℝ) (qv : Vec) (i j : ℕ) : ℝ :=
  FF i * FF j * Real.cos (qdist box pos qv i j) / (fdf pos i + 1) / (fdf pos j + 1)

/-- `fdtsq = FF[i]*FF[j]*sin(qdist)/(fdfactori+1.0)/(fdfactorj+1.0)`. -/
def fdtsq (box : Box3) (pos : ℕ → Vec) (FF : ℕ → ℝ) (qv : Vec) (i j : ℕ) : ℝ :=
  FF i * FF j * Real.sin (qdist box pos qv i j) / (fdf pos i + 1) / (fdf pos j + 1)

/-- `dd = tmp = -1.*q_vec[k]*fdtsq`. -/
def ddI (box : Box3) (pos : ℕ → Vec) (FF : ℕ → ℝ) (qv : Vec) (i j : ℕ) : Vec :=
  Vec.smul (-(fdtsq box pos FF qv i j)) qv

/-- `fd_dd = tmp_z = Vector(0, 0, -1.*fdtcq/BF)`. -/
def fddI (box : Box3) (pos : ℕ → Vec) (FF : ℕ → ℝ) (qv : Vec) (i j : ℕ) : Vec :=
  ⟨0, 0, -(fdtcq box pos FF qv i j) / BFc⟩

/-- the interface branch's derivative buffer entry for original atom `a`
(serial): `deriv[kdx+jatom] += dd`, `deriv[kdx+iatom] -= dsum`, and
`deriv[kdx+iatom] += 2.*dfdsum*fdfactori/(fdfactori+1.0)`. -/
def interDeriv (box : Box3) (n : ℕ) (pos : ℕ → Vec) (FF : ℕ → ℝ) (qv : Vec)
    (a : ℕ) : Vec :=
  (∑ u in Finset.range (interKept n pos).length,
     ∑ v in Finset.range (interKept n pos).length,
       if (interKept n pos).getD v 0 = a then
         ddI box pos FF qv ((interKept n pos).getD u 0) ((interKept n pos).getD v 0)
       else 0)
  - (∑ u in Finset.range (interKept n pos).length,
       if (interKept n pos).getD u 0 = a then
         ∑ v in Finset.range (interKept n pos).length,
           ddI box pos FF qv ((interKept n pos).getD u 0) ((interKept n pos).getD v 0)
       else 0)
  + (∑ u in Finset.range (interKept n pos).length,
       if (interKept n pos).getD u 0 = a then
         Vec.smul (2 * fdf pos ((interKept n pos).getD u 0)
             / (fdf pos ((interKept n pos).getD u 0) + 1))
           (∑ v in Finset.range (interKept n pos).length,
             fddI box pos FF qv ((interKept n pos).getD u 0) ((interKept n pos).getD v 0))
       else 0)

/-! ## Truncation-order selection and the algorithm crossover (`SAXS::setup_midl`)

`x` stands for `maxdist*q_list[k]`.  In the source the exponents are the
C++ integer divisions `2/3` and `1/3`, which both evaluate to `0`; this is
kept verbatim as the integer exponents `(2/3 : ℤ)` and `(1/3 : ℤ)` (and
`pow(y, 0) = 1.0` for every double `y`, matching `zpow_zero`).
`static_cast<unsigned>` of the non-negative double is the floor, modelled
by `Int.toNat ∘ Int.floor`. -/

/-- per-scattering-vector truncation order
`trunc[k] = 5 + (unsigned)(1.2*x + 0.5*pow(12-log10(x), 2/3)*pow(x, 1/3))`,
then `if (trunc[k] < 10) trunc[k] = 10` — no upper clamp. -/
def codeTrunc (x : ℝ) : ℕ :=
  max 10 (5 + (⌊1.2 * x + 0.5 * (12 - Real.logb 10 x) ^ ((2/3 : ℤ)) * x ^ ((1/3 : ℤ))⌋).toNat)

/-- the single `truncation` value computed from the largest magnitude
(`q_list[numq-1]`), clamped on both sides: `if(<10)=10; if(>99)=99`;
it sizes the basis storage `p2 = truncation*truncation`. -/
def globalTrunc (x : ℝ) : ℕ :=
  min 99 (max 10 (5 + (⌊1.2 * x + 0.5 * (12 - Real.logb 10 x) ^ ((2/3 : ℤ)) * x ^ ((1/3 : ℤ))⌋).toNat))

/-- Modelled from the spec: the truncation-order formula as the spec words it,
`5 + floor(1.2*x + 0.5*(12 - log10 x)^(2/3)*x^(1/3))` with real (fractional)
exponents, clamped to the interval `[10, 99]`.  Stated only to be compared
with `codeTrunc`. -/
def specTrunc (x : ℝ) : ℕ :=
  min 99 (max 10 (5 + (⌊1.2 * x + 0.5 * (12 - Real.logb 10 x) ^ ((2 : ℝ)/3) * x ^ ((1 : ℝ)/3)⌋).toNat))

end

/-- the crossover scan `for(int k=numq-1; k>=0; k--) { ...; if(cond(k) && algorithm<0) algorithm=k; }`:
first success scanning `n-1, n-2, ..., 0`, i.e. the largest index satisfying `cond`. -/
def algScan (cond : ℕ → Bool) : ℕ → Option ℕ
  | 0 => none
  | n + 1 => if cond n then some n else algScan cond n

/-- `setup_midl`'s crossover: a vector `k` passes when
`4*trunc[k] < static_cast<unsigned>(sqrt(2*size))`.  The cast of the
correctly-rounded double square root of the exact integer `2*size` equals
`Nat.sqrt (2*size)` for every realistic atom count (the double value of
`sqrt(2*size)` differs from an integer by far more than half an ulp). -/
def saxsAlgorithm (trunc : List ℕ) (size : ℕ) : Option ℕ :=
  algScan (fun k => decide (4 * trunc.getD k 0 < Nat.sqrt (2 * size))) trunc.length

/-- the `FORCE_BESSEL` override `if(force_bessel) algorithm=numq-1;` applied
after the scan. -/
def saxsAlgorithmForced (force : Bool) (trunc : List ℕ) (size : ℕ) : Option ℕ :=
  if force then some (trunc.length - 1) else saxsAlgorithm trunc size

/-- which path computes scattering vector `k`: `bessel_calculate` handles
`k ∈ [0, algorithm]`, the exact path handles the rest (`k ≥ algorithm+1`);
with `algorithm = -1` (`none`) the multipole path is disabled. -/
def usesMultipole (alg : Option ℕ) (k : ℕ) : Bool :=
  match alg with
  | none => false
  | some a => decide (k ≤ a)

/-! ## Constructor-time validation and unit conversion (`SAXS::SAXS`)

The `double` values handled here are only parsed literals and comparisons,
modelled by `ℚ`.  The checks appear in source order: `bessel && gpu`
(line 218), the `QVALUE <= 0` parse check (line 224), then the `q==0` and
ascending-order loop (lines 303-306), then the `*10` unit conversion to
nm⁻¹ (lines 363-367). -/

/-- the `QVALUE` parse loop: `if(t_list<=0.) error(...)`, collecting `q_list`. -/
def parseQ : List ℚ → Except String (List ℚ)
  | [] => .ok []
  | q :: rest =>
    if q ≤ 0 then .error "QVALUE cannot be less or equal to zero!"
    else
      match parseQ rest with
      | .error e => .error e
      | .ok l => .ok (q :: l)

/-- the per-entry loop `if(q_list[i]==0.) error(...); if(i>0 && q_list[i]<q_list[i-1]) error(...)`,
carrying the previous entry. -/
def checkQListAux : Option ℚ → List ℚ → Except String Unit
  | _, [] => .ok ()
  | prev, q :: rest =>
    if q = 0 then .error "it is not possible to set q=0"
    else
      match prev with
      | some p =>
        if q < p then .error "QVALUE must be in ascending order"
        else checkQListAux (some q) rest
      | none => checkQListAux (some q) rest

/-- constructor-time validation and unit conversion: returns the internal
`q_list` (scaled by 10 to nm⁻¹) or the first fatal configuration error. -/
def saxsSetupCheck (bessel gpu : Bool) (qs : List ℚ) : Except String (List ℚ) :=
  if bessel && gpu then .error "You CANNOT use BESSEL on GPU!"
  else
    match parseQ qs with
    | .error e => .error e
    | .ok ql =>
      match checkQListAux none ql with
      | .error e => .error e
      | .ok _ => .ok (ql.map (fun q => q * 10))

/-! ## IEEE-special-value model for `getDeltaPeriodic`

`getDeltaPeriodic` divides by the box diagonal entries without any guard.
To settle what a zero diagonal does, doubles are modelled as exact
rationals extended with signed infinities and NaN (`FP`), with the IEEE-754
rules for the operations the function performs; rounding is irrelevant here
because every operation in the scenario of interest is exact. -/

inductive FP where
  | fin : ℚ → FP
  | inf : Bool → FP
  | nan : FP
deriving DecidableEq

def FP.neg : FP → FP
  | fin a => fin (-a)
  | inf s => inf (!s)
  | nan => nan

def FP.add : FP → FP → FP
  | nan, _ => nan
  | _, nan => nan
  | fin a, fin b => fin (a + b)
  | fin _, inf s => inf s
  | inf s, fin _ => inf s
  | inf s, inf t => if s = t then inf s else nan

def FP.sub (a b : FP) : FP := FP.add a (FP.neg b)

def FP.mul : FP → FP → FP
  | nan, _ => nan
  | _, nan => nan
  | fin a, fin b => fin (a * b)
  | fin a, inf s => if a = 0 then nan else inf ((decide (0 < a)) == s)
  | inf s, fin b => if b = 0 then nan else inf (s == decide (0 < b))
  | inf s, inf t => inf (s == t)

/-- IEEE division; the zero divisors arising here are `+0.0` box entries,
so `a/0 = ±∞` by the sign of `a`, and `0/0 = NaN`. -/
def FP.div : FP → FP → FP
  | nan, _ => nan
  | _, nan => nan
  | fin a, fin b =>
    if b = 0 then (if a = 0 then nan else inf (decide (0 < a)))
    else fin (a / b)
  | fin _, inf _ => fin 0
  | inf s, fin b => if b = 0 then inf s else inf (s == decide (0 < b))
  | inf _, inf _ => nan

def FP.floor : FP → FP
  | fin a => fin (⌊a⌋ : ℚ)
  | inf s => inf s
  | nan => nan

structure FVec where
  x : FP
  y : FP
  z : FP
deriving DecidableEq

def FVec.sub (a b : FVec) : FVec := ⟨FP.sub a.x b.x, FP.sub a.y b.y, FP.sub a.z b.z⟩

/-- `Box_row * scalar` componentwise, as in `Box2*floor(...)`. -/
def FVec.smulRow (row : FVec) (s : FP) : FVec :=
  ⟨FP.mul row.x s, FP.mul row.y s, FP.mul row.z s⟩

structure FBox where
  r0 : FVec
  r1 : FVec
  r2 : FVec

/-- `SAXS::getDeltaPeriodic` under the IEEE-special-value model, line for
line: `diff = a2 - a1`, then the three reductions in order third, second,
first lattice vector. -/
def getDeltaPeriodicFP (box : FBox) (a1 a2 : FVec) : FVec :=
  let d0 := FVec.sub a2 a1
  let n2 := FP.floor (FP.add (FP.div d0.z box.r2.z) (FP.fin (1/2)))
  let d1 := FVec.sub d0 (FVec.smulRow box.r2 n2)
  let n1 := FP.floor (FP.add (FP.div d1.y box.r1.y) (FP.fin (1/2)))
  let d2 := FVec.sub d1 (FVec.smulRow box.r1 n1)
  let n0 := FP.floor (FP.add (FP.div d2.x box.r0.x) (FP.fin (1/2)))
  FVec.sub d2 (FVec.smulRow box.r0 n0)

/-- the all-zero box (fully singular cell). -/
def zeroFBox : FBox :=
  ⟨⟨FP.fin 0, FP.fin 0, FP.fin 0⟩, ⟨FP.fin 0, FP.fin 0, FP.fin 0⟩,
   ⟨FP.fin 0, FP.fin 0, FP.fin 0⟩⟩

noncomputable section

/-! ## Concrete inputs used by the end-to-end scenarios -/

/-- a large cubic box (diagonal 100 nm): no minimum image is ever taken for
the separations used with it. -/
def box100 : Box3 := ⟨⟨100, 0, 0⟩, ⟨0, 100, 0⟩, ⟨0, 0, 100⟩⟩

/-- a two-atom configuration (atom 0 at `p0`, atom 1 at `p1`). -/
def twoAtoms (p0 p1 : Vec) : ℕ → Vec := fun i => if i = 0 then p0 else p1

/-- the hard-coded evaluation-time scattering vector `q_vec[0] = Vector(24.5725,0,0)`. -/
def cpuQvec0 : Vec := ⟨24.5725, 0, 0⟩

/-- the hard-coded evaluation-time scattering vector `q_vec[1] = Vector(24.5725,24.5725,0)`. -/
def cpuQvec1 : Vec := ⟨24.5725, 24.5725, 0⟩

/-- the `q_list` contents after `calculate_cpu` has executed
`q_list.resize(numq)` (with hard-coded `numq = 2`) and
`q_list[k] = q_vec[k].modulo()`. -/
def cpuEvalQList : List ℝ := [cpuQvec0.modulo, cpuQvec1.modulo]

end

/-! ## Basic lemmas about the vector embedding -/

theorem Vec.add_def (a b : Vec) : a + b = Vec.add a b := rfl

theorem Vec.zero_def : (0 : Vec) = Vec.zero := rfl

theorem Vec.neg_def (a : Vec) : -a = Vec.neg a := rfl

theorem Vec.sub_def (a b : Vec) : a - b = Vec.sub a b := by
  rw [sub_eq_add_neg, Vec.add_def, Vec.neg_def]
  cases a; cases b
  simp only [Vec.add, Vec.neg, Vec.sub, Vec.mk.injEq]
  refine ⟨by ring, by ring, by ring⟩

theorem Vec.smul_zero_scalar (v : Vec) : Vec.smul 0 v = 0 := by
  simp [Vec.smul, Vec.zero_def, Vec.zero]

theorem Vec.dot_zero_right (a : Vec) : Vec.dot a Vec.zero = 0 := by
  simp [Vec.dot, Vec.zero]

theorem Vec.dot_zero_left (b : Vec) : Vec.dot Vec.zero b = 0 := by
  simp [Vec.dot, Vec.zero]

theorem Vec.dot_sub_antisymm (q a b : Vec) :
    Vec.dot q (Vec.sub a b) = -Vec.dot q (Vec.sub b a) := by
  simp only [Vec.dot, Vec.sub]
  ring

theorem floor_eq_zero_of (r : ℝ) (h0 : 0 ≤ r) (h1 : r < 1) : ⌊r⌋ = 0 :=
  Int.floor_eq_zero_iff.mpr (Set.mem_Ico.mpr ⟨h0, h1⟩)

/-- the reduction is a no-op on the zero difference vector, whatever the box
(in real semantics `0 / c = 0` also for `c = 0`). -/
theorem getDeltaPeriodic_self (box : Box3) (p : Vec) :
    getDeltaPeriodic box p p = Vec.zero := by
  have hf : (⌊(2⁻¹ : ℝ)⌋ : ℤ) = 0 := by
    refine floor_eq_zero_of _ (by norm_num) (by norm_num)
  simp [getDeltaPeriodic, reduce0, reduce1, reduce2, Vec.sub, Vec.smul, Vec.zero, hf]

theorem rankRow_serial (n : ℕ) : rankRow n 1 0 = Finset.range n := by
  simp [rankRow, Nat.mod_one]

theorem Vec.zero_x : (0 : Vec).x = 0 := rfl

theorem Vec.zero_y : (0 : Vec).y = 0 := rfl

theorem Vec.zero_z : (0 : Vec).z = 0 := rfl

theorem Vec.sub_x (a b : Vec) : (Vec.sub a b).x = a.x - b.x := rfl

theorem Vec.sub_y (a b : Vec) : (Vec.sub a b).y = a.y - b.y := rfl

theorem Vec.sub_z (a b : Vec) : (Vec.sub a b).z = a.z - b.z := rfl

theorem reduce2_noop (box : Box3) (d : Vec) (h : (⌊d.z / box.r2.z + 1/2⌋ : ℤ) = 0) :
    reduce2 box d = d := by
  have h' : (⌊d.z / box.r2.z + 2⁻¹⌋ : ℤ) = 0 := by rw [← one_div]; exact h
  simp [reduce2, h', Vec.sub, Vec.smul]

theorem reduce1_noop (box : Box3) (d : Vec) (h : (⌊d.y / box.r1.y + 1/2⌋ : ℤ) = 0) :
    reduce1 box d = d := by
  have h' : (⌊d.y / box.r1.y + 2⁻¹⌋ : ℤ) = 0 := by rw [← one_div]; exact h
  simp [reduce1, h', Vec.sub, Vec.smul]

theorem reduce0_noop (box : Box3) (d : Vec) (h : (⌊d.x / box.r0.x + 1/2⌋ : ℤ) = 0) :
    reduce0 box d = d := by
  have h' : (⌊d.x / box.r0.x + 2⁻¹⌋ : ℤ) = 0 := by rw [← one_div]; exact h
  simp [reduce0, h', Vec.sub, Vec.smul]

/-- when no image shift is selected along any lattice vector, the reduced
displacement is the plain difference. -/
theorem getDeltaPeriodic_noop (box : Box3) (a1 a2 : Vec)
    (h2 : (⌊(a2.z - a1.z) / box.r2.z + 1/2⌋ : ℤ) = 0)
    (h1 : (⌊(a2.y - a1.y) / box.r1.y + 1/2⌋ : ℤ) = 0)
    (h0 : (⌊(a2.x - a1.x) / box.r0.x + 1/2⌋ : ℤ) = 0) :
    getDeltaPeriodic box a1 a2 = Vec.sub a2 a1 := by
  rw [getDeltaPeriodic, reduce2_noop box _ (by rw [Vec.sub_z]; exact h2),
    reduce1_noop box _ (by rw [Vec.sub_y]; exact h1),
    reduce0_noop box _ (by rw [Vec.sub_x]; exact h0)]

/-- no image shift for the two scenario atoms in the large box, forward direction. -/
theorem gdp100_A :
    getDeltaPeriodic box100 (⟨0,0,0⟩ : Vec) (⟨1,0,0⟩ : Vec)
      = Vec.sub (⟨1,0,0⟩ : Vec) (⟨0,0,0⟩ : Vec) := by
  refine getDeltaPeriodic_noop _ _ _ ?_ ?_ ?_ <;>
    refine floor_eq_zero_of _ (by norm_num [box100]) (by norm_num [box100])

/-- no image shift for the two scenario atoms in the large box, reverse direction. -/
theorem gdp100_B :
    getDeltaPeriodic box100 (⟨1,0,0⟩ : Vec) (⟨0,0,0⟩ : Vec)
      = Vec.sub (⟨0,0,0⟩ : Vec) (⟨1,0,0⟩ : Vec) := by
  refine getDeltaPeriodic_noop _ _ _ ?_ ?_ ?_ <;>
    refine floor_eq_zero_of _ (by norm_num [box100]) (by norm_num [box100])

theorem twoAtoms_zero (p0 p1 : Vec) : twoAtoms p0 p1 0 = p0 := rfl

theorem twoAtoms_one (p0 p1 : Vec) : twoAtoms p0 p1 1 = p1 := rfl

/-- the serial exact-path intensity of a two-atom system with unit
amplitudes, when the minimum-image reduction does not shift either
displacement. -/
theorem debyeSum_twoAtoms (box : Box3) (p0 p1 qv : Vec)
    (hA : getDeltaPeriodic box p0 p1 = Vec.sub p1 p0)
    (hB : getDeltaPeriodic box p1 p0 = Vec.sub p0 p1) :
    debyeSumPar box (twoAtoms p0 p1) (fun _ => 1) qv 2 1
      = 2 + 2 * Real.cos (Vec.dot qv (Vec.sub p1 p0)) := by
  have h00 : qdist box (twoAtoms p0 p1) qv 0 0 = 0 := by
    rw [qdist, twoAtoms_zero, getDeltaPeriodic_self, Vec.dot_zero_right]
  have h11 : qdist box (twoAtoms p0 p1) qv 1 1 = 0 := by
    rw [qdist, twoAtoms_one, getDeltaPeriodic_self, Vec.dot_zero_right]
  have h01 : qdist box (twoAtoms p0 p1) qv 0 1 = Vec.dot qv (Vec.sub p1 p0) := by
    rw [qdist, twoAtoms_zero, twoAtoms_one, hA]
  have h10 : qdist box (twoAtoms p0 p1) qv 1 0 = -Vec.dot qv (Vec.sub p1 p0) := by
    rw [qdist, twoAtoms_zero, twoAtoms_one, hB, Vec.dot_sub_antisymm]
  simp only [debyeSumPar, debyeSumRank, Finset.sum_range_one, rankRow_serial,
    ← Finset.range_eq_Ico, tcqTerm]
  simp only [Finset.sum_range_succ, Finset.sum_range_zero]
  rw [h00, h01, h10, h11, Real.cos_neg, Real.cos_zero]
  ring

theorem qdist100_01 :
    qdist box100 (twoAtoms ⟨0,0,0⟩ ⟨1,0,0⟩) ⟨2 * Real.pi, 0, 0⟩ 0 1 = 2 * Real.pi := by
  rw [qdist, twoAtoms_zero, twoAtoms_one, gdp100_A]
  simp [Vec.dot, Vec.sub]

theorem qdist100_10 :
    qdist box100 (twoAtoms ⟨0,0,0⟩ ⟨1,0,0⟩) ⟨2 * Real.pi, 0, 0⟩ 1 0 = -(2 * Real.pi) := by
  rw [qdist, twoAtoms_zero, twoAtoms_one, gdp100_B]
  simp [Vec.dot, Vec.sub]

/-- Claim C1: for the exact (Debye) path with two atoms at (0,0,0) and
(1,0,0) nm, unit amplitude for both atoms and scattering vector
q = (2π,0,0) nm⁻¹, the computed intensity equals 2 + 2·cos(2π) = 4 and the
computed derivative on the atom at (1,0,0) is the zero vector; more
generally, for any two atoms with unit amplitudes whose displacement is
left unshifted by the minimum-image reduction, the exact-path intensity
equals 2 + 2·cos(q·d). -/
theorem c1_exact_two_atom :
    (∀ (box : Box3) (p0 p1 qv : Vec),
        getDeltaPeriodic box p0 p1 = Vec.sub p1 p0 →
        getDeltaPeriodic box p1 p0 = Vec.sub p0 p1 →
        debyeSumPar box (twoAtoms p0 p1) (fun _ => 1) qv 2 1
          = 2 + 2 * Real.cos (Vec.dot qv (Vec.sub p1 p0)))
    ∧ debyeSumPar box100 (twoAtoms ⟨0,0,0⟩ ⟨1,0,0⟩) (fun _ => 1) ⟨2 * Real.pi, 0, 0⟩ 2 1 = 4
    ∧ debyeDerivPar box100 (twoAtoms ⟨0,0,0⟩ ⟨1,0,0⟩) (fun _ => 1) ⟨2 * Real.pi, 0, 0⟩ 2 1 1
      = 0 := by
  refine ⟨debyeSum_twoAtoms, ?_, ?_⟩
  · rw [debyeSum_twoAtoms _ _ _ _ gdp100_A gdp100_B]
    have hdot : Vec.dot (⟨2 * Real.pi, 0, 0⟩ : Vec) (Vec.sub ⟨1,0,0⟩ ⟨0,0,0⟩) = 2 * Real.pi := by
      simp [Vec.dot, Vec.sub]
    rw [hdot, Real.cos_two_pi]
    norm_num
  · have hq00 : qdist box100 (twoAtoms ⟨0,0,0⟩ ⟨1,0,0⟩) ⟨2 * Real.pi, 0, 0⟩ 0 0 = 0 := by
      rw [qdist, twoAtoms_zero, getDeltaPeriodic_self, Vec.dot_zero_right]
    have hq11 : qdist box100 (twoAtoms ⟨0,0,0⟩ ⟨1,0,0⟩) ⟨2 * Real.pi, 0, 0⟩ 1 1 = 0 := by
      rw [qdist, twoAtoms_one, getDeltaPeriodic_self, Vec.dot_zero_right]
    simp only [debyeDerivPar, debyeDerivRank, Finset.sum_range_one, rankRow_serial,
      ← Finset.range_eq_Ico, ddTerm]
    simp [Finset.sum_range_succ, hq00, hq11, qdist100_01, qdist100_10,
      Real.sin_two_pi, Real.sin_neg, Real.sin_zero, Vec.smul_zero_scalar]

/-- Witness for C1: the general two-body formula applied at concrete
atoms (0,0,0), (2,1,0) and scattering vector (1,2,3), with the
no-image-shift hypotheses discharged in the large box. -/
theorem c1_exact_two_atom_witness :
    debyeSumPar box100 (twoAtoms ⟨0,0,0⟩ ⟨2,1,0⟩) (fun _ => 1) ⟨1,2,3⟩ 2 1
      = 2 + 2 * Real.cos (Vec.dot (⟨1,2,3⟩ : Vec) (Vec.sub (⟨2,1,0⟩ : Vec) ⟨0,0,0⟩)) :=
  c1_exact_two_atom.1 box100 ⟨0,0,0⟩ ⟨2,1,0⟩ ⟨1,2,3⟩
    (getDeltaPeriodic_noop _ _ _
      (floor_eq_zero_of _ (by norm_num [box100]) (by norm_num [box100]))
      (floor_eq_zero_of _ (by norm_num [box100]) (by norm_num [box100]))
      (floor_eq_zero_of _ (by norm_num [box100]) (by norm_num [box100])))
    (getDeltaPeriodic_noop _ _ _
      (floor_eq_zero_of _ (by norm_num [box100]) (by norm_num [box100]))
      (floor_eq_zero_of _ (by norm_num [box100]) (by norm_num [box100]))
      (floor_eq_zero_of _ (by norm_num [box100]) (by norm_num [box100])))

/-- Claim C7 (amended): in the plain Debye branch the per-atom derivative
vectors sum to the zero vector over all atoms, for every configuration,
every scattering vector and every rank/stride partitioning — each pair
contribution added to atom j is cancelled by the negated accumulated sum
applied to atom i.  (The interface branch executed by default adds a
taper-derivative term that breaks this; see the counterexample.) -/
theorem c7_debye_netforce_zero :
    ∀ (box : Box3) (pos : ℕ → Vec) (FF : ℕ → ℝ) (qv : Vec) (n stride : ℕ),
      ∑ a in Finset.range n, debyeDerivPar box pos FF qv n stride a = 0 := by
  intro box pos FF qv n stride
  simp only [debyeDerivPar]
  rw [Finset.sum_comm]
  refine Finset.sum_eq_zero fun r _ => ?_
  simp only [debyeDerivRank]
  rw [Finset.sum_sub_distrib]
  have hIco : Finset.range n ∩ Finset.Ico r n = Finset.Ico r n := by
    refine Finset.inter_eq_right.mpr ?_
    rw [Finset.range_eq_Ico]
    exact Finset.Ico_subset_Ico (Nat.zero_le r) le_rfl
  have hRR : Finset.range n ∩ rankRow n stride r = rankRow n stride r :=
    Finset.inter_eq_right.mpr (Finset.filter_subset _ _)
  rw [Finset.sum_comm (s := Finset.range n) (t := rankRow n stride r)]
  conv_lhs =>
    rw [show (∑ i in rankRow n stride r, ∑ a in Finset.range n,
        if a ∈ Finset.Ico r n then ddTerm box pos FF qv i a else 0)
      = ∑ i in rankRow n stride r, ∑ a in Finset.Ico r n, ddTerm box pos FF qv i a from
      Finset.sum_congr rfl fun i _ => by rw [Finset.sum_ite_mem, hIco]]
  rw [Finset.sum_ite_mem, hRR]
  exact sub_eq_zero.mpr rfl

theorem zmaxc_pos : (0 : ℝ) < zmaxc := by
  rw [zmaxc, BFc, SFc, z0c]
  have h9 : (0:ℝ) < Real.log (1 / 0.001 - 1) := Real.log_pos (by norm_num)
  nlinarith [h9]

/-- Claim C7 counterexample: with the interface (Fermi-Dirac taper) branch
that `calculate_cpu` actually executes (`interface=1`), a single atom at the
origin with unit amplitude already has a nonzero net derivative: the extra
term `2*dfdsum*fdfactori/(fdfactori+1)` is not cancelled by anything. -/
theorem c7_counterexample :
    ∑ a in Finset.range 1,
      interDeriv box100 1 (fun _ => (⟨0,0,0⟩ : Vec)) (fun _ => 1) ⟨0,0,0⟩ a ≠ 0 := by
  have hkept : interKept 1 (fun _ => (⟨0,0,0⟩ : Vec)) = [0] := by
    simp [interKept, List.range_succ, zmaxc_pos]
  have hq : qdist box100 (fun _ => (⟨0,0,0⟩ : Vec)) ⟨0,0,0⟩ 0 0 = 0 := by
    rw [qdist]
    exact Vec.dot_zero_left _
  have hftc : fdtcq box100 (fun _ => (⟨0,0,0⟩ : Vec)) (fun _ => 1) ⟨0,0,0⟩ 0 0
      = 1 / (fdf (fun _ => (⟨0,0,0⟩ : Vec)) 0 + 1) / (fdf (fun _ => (⟨0,0,0⟩ : Vec)) 0 + 1) := by
    rw [fdtcq, hq, Real.cos_zero]
    norm_num
  have hfpos : (0:ℝ) < fdf (fun _ => (⟨0,0,0⟩ : Vec)) 0 := Real.exp_pos _
  intro hcontra
  rw [Finset.sum_range_one] at hcontra
  simp only [interDeriv, hkept, List.length_cons, List.length_nil, Finset.sum_range_one,
    List.getD_cons_zero, if_pos rfl, if_true, sub_self, zero_add] at hcontra
  set f := fdf (fun _ => (⟨0,0,0⟩ : Vec)) 0 with hf
  have hz := congrArg Vec.z hcontra
  rw [fddI, hftc] at hz
  simp only [Vec.smul, Vec.zero_z, if_true] at hz
  rw [BFc] at hz
  have h1 : (0:ℝ) < 1 / (f + 1) / (f + 1) := by positivity
  have h2 : (0:ℝ) < 2 * f / (f + 1) := by positivity
  have hpos : (0:ℝ) < 2 * f / (f + 1) * (1 / (f + 1) / (f + 1) / (5e-2 : ℝ)) := by
    positivity
  have hneg : 2 * f / (f + 1) * (-(1 / (f + 1) / (f + 1)) / (5e-2 : ℝ))
      = -(2 * f / (f + 1) * (1 / (f + 1) / (f + 1) / (5e-2 : ℝ))) := by ring
  rw [hneg] at hz
  linarith [hpos, hz]

/-- Claim C8 (code-bug evidence): the set of pair terms computed by the
exact path depends on the rank count.  With two identical atoms of unit
amplitude every pair term equals 1; the serial run (stride 1) accumulates
all 4 ordered pairs, but with 2 ranks the pair (i=1, j=0) is computed by
no rank — rank 1's inner loop starts at `j=rank=1` — so the reduced
intensity is 3, a finite discrepancy rather than summation-order error. -/
theorem c8_partition_dependent :
    debyeSumPar box100 (fun _ => (⟨0,0,0⟩ : Vec)) (fun _ => 1) ⟨0,0,0⟩ 2 1 = 4
    ∧ debyeSumPar box100 (fun _ => (⟨0,0,0⟩ : Vec)) (fun _ => 1) ⟨0,0,0⟩ 2 2 = 3
    ∧ debyeSumPar box100 (fun _ => (⟨0,0,0⟩ : Vec)) (fun _ => 1) ⟨0,0,0⟩ 2 2
      ≠ debyeSumPar box100 (fun _ => (⟨0,0,0⟩ : Vec)) (fun _ => 1) ⟨0,0,0⟩ 2 1 := by
  have hterm : ∀ i j : ℕ,
      tcqTerm box100 (fun _ => (⟨0,0,0⟩ : Vec)) (fun _ => 1) ⟨0,0,0⟩ i j = 1 := by
    intro i j
    rw [tcqTerm, qdist]
    simp [Vec.dot]
  have h20 : rankRow 2 2 0 = {0} := by decide
  have h21 : rankRow 2 2 1 = {1} := by decide
  have hser : debyeSumPar box100 (fun _ => (⟨0,0,0⟩ : Vec)) (fun _ => 1) ⟨0,0,0⟩ 2 1 = 4 := by
    rw [debyeSumPar, Finset.sum_range_one, debyeSumRank, rankRow_serial,
      ← Finset.range_eq_Ico]
    simp [hterm, Finset.sum_const, Finset.card_range]
    norm_num
  have hI0 : Finset.Ico 0 2 = ({0, 1} : Finset ℕ) := by decide
  have hI1 : Finset.Ico 1 2 = ({1} : Finset ℕ) := by decide
  have hpar : debyeSumPar box100 (fun _ => (⟨0,0,0⟩ : Vec)) (fun _ => 1) ⟨0,0,0⟩ 2 2 = 3 := by
    rw [debyeSumPar]
    rw [Finset.sum_range_succ, Finset.sum_range_one]
    rw [debyeSumRank, debyeSumRank, h20, h21, hI0, hI1]
    simp [hterm]
    norm_num
  refine ⟨hser, hpar, ?_⟩
  rw [hser, hpar]
  norm_num

/-- the unguarded zero-diagonal division: on the all-zero box any
difference vector with nonzero components comes back as all-NaN. -/
theorem gdpFP_zeroBox_nan (q1 q2 q3 : ℚ) (h1 : q1 ≠ 0) (h2 : q2 ≠ 0) (h3 : q3 ≠ 0) :
    getDeltaPeriodicFP zeroFBox ⟨FP.fin 0, FP.fin 0, FP.fin 0⟩
        ⟨FP.fin q1, FP.fin q2, FP.fin q3⟩
      = ⟨FP.nan, FP.nan, FP.nan⟩ := by
  simp [getDeltaPeriodicFP, zeroFBox, FVec.sub, FVec.smulRow,
    FP.sub, FP.add, FP.neg, FP.mul, FP.div, FP.floor, h1, h2, h3]

/-- Claim C3 counterexample: for the all-zero (fully singular) box the
division by the zero diagonal entries is not guarded; on the difference
vector (1,2,3) the IEEE evaluation returns the all-NaN vector, not the
unreduced difference. -/
theorem c3_counterexample :
    getDeltaPeriodicFP zeroFBox ⟨FP.fin 0, FP.fin 0, FP.fin 0⟩
        ⟨FP.fin 1, FP.fin 2, FP.fin 3⟩ = ⟨FP.nan, FP.nan, FP.nan⟩
    ∧ getDeltaPeriodicFP zeroFBox ⟨FP.fin 0, FP.fin 0, FP.fin 0⟩
        ⟨FP.fin 1, FP.fin 2, FP.fin 3⟩
      ≠ FVec.sub ⟨FP.fin 1, FP.fin 2, FP.fin 3⟩ ⟨FP.fin 0, FP.fin 0, FP.fin 0⟩ := by
  have h := gdpFP_zeroBox_nan 1 2 3 (by norm_num) (by norm_num) (by norm_num)
  refine ⟨h, ?_⟩
  rw [h]
  simp [FVec.sub, FP.sub, FP.neg, FP.add, FVec.mk.injEq]

/-- Claim C3 (amended): the pairwise displacement helper applies the
minimum-image reduction in the fixed order third, then second, then first
lattice vector; but division by a zero box-diagonal entry is NOT guarded:
for the zero box and any difference vector with all components nonzero,
every component of the result is NaN under IEEE arithmetic rather than the
unreduced difference vector. -/
theorem c3_amended :
    (∀ (box : Box3) (a1 a2 : Vec),
        getDeltaPeriodic box a1 a2
          = reduce0 box (reduce1 box (reduce2 box (Vec.sub a2 a1))))
    ∧ ∀ (q1 q2 q3 : ℚ), q1 ≠ 0 → q2 ≠ 0 → q3 ≠ 0 →
        getDeltaPeriodicFP zeroFBox ⟨FP.fin 0, FP.fin 0, FP.fin 0⟩
            ⟨FP.fin q1, FP.fin q2, FP.fin q3⟩
          = ⟨FP.nan, FP.nan, FP.nan⟩ :=
  ⟨fun _ _ _ => rfl, gdpFP_zeroBox_nan⟩

/-- Witness for C3 (amended), at the zero box and difference (1,2,3). -/
theorem c3_amended_witness :
    getDeltaPeriodic box100 ⟨0,0,0⟩ ⟨1,0,0⟩
      = reduce0 box100 (reduce1 box100 (reduce2 box100 (Vec.sub ⟨1,0,0⟩ ⟨0,0,0⟩)))
    ∧ getDeltaPeriodicFP zeroFBox ⟨FP.fin 0, FP.fin 0, FP.fin 0⟩
        ⟨FP.fin 1, FP.fin 2, FP.fin 3⟩ = ⟨FP.nan, FP.nan, FP.nan⟩ :=
  ⟨c3_amended.1 box100 ⟨0,0,0⟩ ⟨1,0,0⟩,
   c3_amended.2 1 2 3 (by norm_num) (by norm_num) (by norm_num)⟩

/-- the integer-division exponents collapse the source's truncation formula
to `5 + floor(1.2*x + 0.5)` (clamped below at 10). -/
theorem codeTrunc_eval (x : ℝ) :
    codeTrunc x = max 10 (5 + (⌊1.2 * x + 1/2⌋).toNat) := by
  rw [codeTrunc, show ((2:ℤ)/3) = 0 from by decide, show ((1:ℤ)/3) = 0 from by decide,
    zpow_zero, zpow_zero]
  norm_num

theorem codeTrunc_100 : codeTrunc 100 = 125 := by
  rw [codeTrunc_eval]
  have hf : (⌊1.2 * (100:ℝ) + 1/2⌋ : ℤ) = 120 :=
    Int.floor_eq_iff.mpr ⟨by norm_num, by norm_num⟩
  rw [hf]
  decide

theorem logb_10_100 : Real.logb 10 100 = 2 := by
  have hne : Real.log 10 ≠ 0 := ne_of_gt (Real.log_pos (by norm_num))
  rw [Real.logb, show (100:ℝ) = 10 ^ (2:ℕ) from by norm_num, Real.log_pow]
  push_cast
  field_simp

theorem rpow_combine : (10:ℝ) ^ ((2:ℝ)/3) * (100:ℝ) ^ ((1:ℝ)/3) = (10:ℝ) ^ ((4:ℝ)/3) := by
  rw [show (100:ℝ) = 10 ^ (2:ℝ) from by
      rw [show ((2:ℝ)) = ((2:ℕ):ℝ) from by norm_num, Real.rpow_natCast]; norm_num]
  rw [← Real.rpow_mul (by norm_num : (0:ℝ) ≤ 10), ← Real.rpow_add (by norm_num : (0:ℝ) < 10)]
  norm_num

theorem rpow_43_bounds : (20:ℝ) ≤ (10:ℝ) ^ ((4:ℝ)/3) ∧ (10:ℝ) ^ ((4:ℝ)/3) < 22 := by
  have hnn : (0:ℝ) ≤ (10:ℝ) ^ ((4:ℝ)/3) := Real.rpow_nonneg (by norm_num) _
  have hcube : ((10:ℝ) ^ ((4:ℝ)/3)) ^ (3:ℕ) = 10000 := by
    rw [← Real.rpow_natCast ((10:ℝ) ^ ((4:ℝ)/3)) 3,
      ← Real.rpow_mul (by norm_num : (0:ℝ) ≤ 10)]
    rw [show ((4:ℝ)/3 * ((3:ℕ):ℝ)) = ((4:ℕ):ℝ) from by push_cast; ring, Real.rpow_natCast]
    norm_num
  constructor
  · refine le_of_pow_le_pow_left (n := 3) (by norm_num) hnn ?_
    rw [hcube]
    norm_num
  · refine lt_of_pow_lt_pow_left 3 (by norm_num : (0:ℝ) ≤ 22) ?_
    rw [hcube]
    norm_num

theorem specTrunc_100 : specTrunc 100 = 99 := by
  rw [specTrunc, logb_10_100, show ((12:ℝ) - 2) = 10 from by norm_num, mul_assoc,
    rpow_combine]
  have hf : (⌊1.2 * (100:ℝ) + 0.5 * (10:ℝ) ^ ((4:ℝ)/3)⌋ : ℤ) = 130 := by
    refine Int.floor_eq_iff.mpr ⟨?_, ?_⟩
    · have := rpow_43_bounds.1
      push_cast
      nlinarith [this]
    · have := rpow_43_bounds.2
      push_cast
      nlinarith [this]
  rw [hf]
  decide

/-- Claim C4 counterexample: at `D*|q| = 100` the source computes truncation
order 125 while the spec's formula (fractional exponents, clamp to [10,99])
yields 99. -/
theorem c4_counterexample :
    codeTrunc 100 = 125 ∧ specTrunc 100 = 99 ∧ codeTrunc 100 ≠ specTrunc 100 := by
  refine ⟨codeTrunc_100, specTrunc_100, ?_⟩
  rw [codeTrunc_100, specTrunc_100]
  norm_num

/-- Claim C4 (amended): the per-vector truncation order equals
`5 + floor(1.2·D·|q_k| + 0.5)` — the fractional exponents `2/3` and `1/3`
are C++ integer divisions, so both power factors are 1 — clamped below at
10 but with no upper clamp; only the separately computed global truncation
(used to size the basis storage) is additionally clamped at 99. -/
theorem c4_amended :
    ∀ x : ℝ, codeTrunc x = max 10 (5 + (⌊1.2 * x + 1/2⌋).toNat)
      ∧ globalTrunc x = min 99 (codeTrunc x) :=
  fun x => ⟨codeTrunc_eval x, rfl⟩

/-- Claim C5 counterexample: the per-vector truncation-order table is not
bounded by 99: at bounding-box extent D = 10 and |q| = 10 the entry is 125. -/
theorem c5_counterexample : 99 < codeTrunc (10 * 10) := by
  rw [show ((10:ℝ) * 10) = 100 from by norm_num, codeTrunc_100]
  norm_num

/-- Claim C5 (amended): for a fixed bounding-box extent every entry of the
per-vector truncation-order table is at least 10 and the table is
non-decreasing in scattering-vector magnitude; entries are NOT bounded
above by 99 (only the global storage truncation is). -/
theorem c5_amended :
    ∀ (D q1 q2 : ℝ), 0 ≤ D → 0 ≤ q1 → q1 ≤ q2 →
      10 ≤ codeTrunc (D * q1) ∧ codeTrunc (D * q1) ≤ codeTrunc (D * q2) := by
  intro D q1 q2 hD h1 h12
  constructor
  · rw [codeTrunc_eval]
    exact le_max_left _ _
  · rw [codeTrunc_eval, codeTrunc_eval]
    have hx : D * q1 ≤ D * q2 := mul_le_mul_of_nonneg_left h12 hD
    have hfl : (⌊1.2 * (D * q1) + 1/2⌋ : ℤ) ≤ ⌊1.2 * (D * q2) + 1/2⌋ :=
      Int.floor_le_floor (by nlinarith)
    exact max_le_max le_rfl (Nat.add_le_add_left (Int.toNat_le_toNat hfl) 5)

/-- Witness for C5 (amended) at D = 2, magnitudes 3 ≤ 5. -/
theorem c5_amended_witness :
    10 ≤ codeTrunc (2 * 3) ∧ codeTrunc (2 * 3) ≤ codeTrunc (2 * 5) :=
  c5_amended 2 3 5 (by norm_num) (by norm_num) (by norm_num)

theorem algScan_eq_some (cond : ℕ → Bool) :
    ∀ n k : ℕ, algScan cond n = some k
      ↔ (k < n ∧ cond k = true ∧ ∀ j, k < j → j < n → cond j = false) := by
  intro n
  induction n with
  | zero => intro k; simp [algScan]
  | succ n ih =>
    intro k
    by_cases hc : cond n = true
    · rw [algScan, if_pos hc]
      constructor
      · intro h
        have hk : k = n := (Option.some.injEq _ _).mp h.symm
        subst hk
        exact ⟨Nat.lt_succ_self _, hc, fun j hj hj' => absurd hj (by omega)⟩
      · rintro ⟨hk, hck, hall⟩
        have : k = n := by
          by_contra hne
          have hkn : k < n := by omega
          have := hall n hkn (Nat.lt_succ_self _)
          rw [this] at hc
          exact Bool.false_ne_true hc
        rw [this]
    · have hcf : cond n = false := Bool.not_eq_true _ ▸ eq_false_of_ne_true hc
      rw [algScan, if_neg hc, ih]
      constructor
      · rintro ⟨hk, hck, hall⟩
        refine ⟨by omega, hck, fun j hj hj' => ?_⟩
        rcases Nat.lt_succ_iff_lt_or_eq.mp hj' with h' | rfl
        · exact hall j hj h'
        · exact hcf
      · rintro ⟨hk, hck, hall⟩
        have hkn : k ≠ n := by
          rintro rfl
          rw [hck] at hcf
          exact absurd hcf (by simp)
        refine ⟨by omega, hck, fun j hj hj' => hall j hj (by omega)⟩

theorem algScan_eq_none (cond : ℕ → Bool) :
    ∀ n : ℕ, algScan cond n = none ↔ ∀ k, k < n → cond k = false := by
  intro n
  induction n with
  | zero => simp [algScan]
  | succ n ih =>
    by_cases hc : cond n = true
    · rw [algScan, if_pos hc]
      constructor
      · intro h
        exact absurd h (by simp)
      · intro hall
        have := hall n (Nat.lt_succ_self _)
        rw [this] at hc
        exact absurd hc (by simp)
    · have hcf : cond n = false := eq_false_of_ne_true hc
      rw [algScan, if_neg hc, ih]
      constructor
      · intro hall k hk
        rcases Nat.lt_succ_iff_lt_or_eq.mp hk with h' | rfl
        · exact hall k h'
        · exact hcf
      · exact fun hall k hk => hall k (by omega)

/-- Claim C6 counterexample: with the single-entry truncation table [10] and
801 atoms, the claim's condition holds — 4·10 = 40 < √1602 ≈ 40.02 — so the
claim assigns vector 0 to the multipole path; but the source compares
against the integer-truncated square root (`static_cast<unsigned>`), 40 < 40
is false, and the multipole path is disabled. -/
theorem sqrt_1602 : Nat.sqrt 1602 = 40 := by
  symm
  rw [Nat.eq_sqrt]
  norm_num

theorem sqrt_1690 : Nat.sqrt 1690 = 41 := by
  symm
  rw [Nat.eq_sqrt]
  norm_num

theorem c6_counterexample :
    (4 * 10 : ℝ) < Real.sqrt (2 * 801)
    ∧ saxsAlgorithm [10] 801 = none
    ∧ usesMultipole (saxsAlgorithm [10] 801) 0 = false := by
  have h2 : saxsAlgorithm [10] 801 = none := by
    simp [saxsAlgorithm, algScan, sqrt_1602]
  refine ⟨?_, h2, by rw [h2]; rfl⟩
  rw [show (4 * 10 : ℝ) = 40 from by norm_num]
  rw [Real.lt_sqrt (by norm_num)]
  norm_num

/-- Claim C6 (amended): the crossover condition is
`4·trunc[k] < ⌊√(2·atomCount)⌋` (the C cast of the square root to unsigned),
not the real-valued comparison; with that amendment: scanning from the
largest index down, the crossover is the largest index satisfying the
condition; every index at or below it uses the multipole path and, when the
table is non-decreasing, each such index itself satisfies the condition; if
no index satisfies it the multipole path is disabled and the exact path
handles every vector; the forced override assigns the last index
regardless. -/
theorem c6_amended :
    ∀ (trunc : List ℕ) (size : ℕ),
      (∀ k, saxsAlgorithm trunc size = some k →
          k < trunc.length
          ∧ 4 * trunc.getD k 0 < Nat.sqrt (2 * size)
          ∧ ∀ j, k < j → j < trunc.length → ¬(4 * trunc.getD j 0 < Nat.sqrt (2 * size)))
      ∧ (saxsAlgorithm trunc size = none
          ↔ ∀ k, k < trunc.length → ¬(4 * trunc.getD k 0 < Nat.sqrt (2 * size)))
      ∧ ((∀ i j, i ≤ j → j < trunc.length → trunc.getD i 0 ≤ trunc.getD j 0) →
          ∀ k a, saxsAlgorithm trunc size = some a → usesMultipole (some a) k = true →
            4 * trunc.getD k 0 < Nat.sqrt (2 * size))
      ∧ saxsAlgorithmForced true trunc size = some (trunc.length - 1)
      ∧ ∀ k, usesMultipole none k = false := by
  intro trunc size
  refine ⟨?_, ?_, ?_, rfl, fun _ => rfl⟩
  · intro k h
    rw [saxsAlgorithm, algScan_eq_some] at h
    obtain ⟨hk, hck, hall⟩ := h
    refine ⟨hk, of_decide_eq_true hck, fun j hj hj' => ?_⟩
    have := hall j hj hj'
    exact of_decide_eq_false this
  · rw [saxsAlgorithm, algScan_eq_none]
    constructor
    · intro hall k hk
      exact of_decide_eq_false (hall k hk)
    · intro hall k hk
      exact decide_eq_false (hall k hk)
  · intro hmono k a ha hk
    have hka : k ≤ a := of_decide_eq_true hk
    have h1 := by
      rw [saxsAlgorithm, algScan_eq_some] at ha
      exact ha
    obtain ⟨haLen, hca, _⟩ := h1
    have hle : trunc.getD k 0 ≤ trunc.getD a 0 := hmono k a hka haLen
    have := of_decide_eq_true hca
    omega

/-- Witness for C6 (amended): table [10] with 845 atoms
(⌊√1690⌋ = 41 > 40), where the scan selects index 0. -/
theorem c6_amended_witness :
    (0 < ([10] : List ℕ).length
      ∧ 4 * ([10] : List ℕ).getD 0 0 < Nat.sqrt (2 * 845)
      ∧ ∀ j, 0 < j → j < ([10] : List ℕ).length
          → ¬(4 * ([10] : List ℕ).getD j 0 < Nat.sqrt (2 * 845)))
    ∧ 4 * ([10] : List ℕ).getD 0 0 < Nat.sqrt (2 * 845) :=
  ⟨(c6_amended [10] 845).1 0 (by simp [saxsAlgorithm, algScan, sqrt_1690]),
   (c6_amended [10] 845).2.2.1
     (fun i j hij hj => by
       have hj0 : j = 0 := by
         simp only [List.length_cons, List.length_nil] at hj
         omega
       have hi0 : i = 0 := by omega
       rw [hi0, hj0])
     0 0 (by simp [saxsAlgorithm, algScan, sqrt_1690]) (by decide)⟩

theorem parseQ_ok_of_pos : ∀ qs : List ℚ, (∀ q ∈ qs, 0 < q) → parseQ qs = .ok qs := by
  intro qs
  induction qs with
  | nil => intro _; rfl
  | cons q rest ih =>
    intro h
    have hq : 0 < q := h q (List.mem_cons_self q rest)
    rw [parseQ, if_neg (not_le.mpr hq), ih (fun p hp => h p (List.mem_cons_of_mem _ hp))]

theorem parseQ_error_of_nonpos :
    ∀ qs : List ℚ, (∃ q ∈ qs, q ≤ 0) → ∃ e, parseQ qs = .error e := by
  intro qs
  induction qs with
  | nil => rintro ⟨q, hq, _⟩; simp at hq
  | cons q rest ih =>
    rintro ⟨p, hp, hple⟩
    rw [parseQ]
    by_cases hq : q ≤ 0
    · rw [if_pos hq]
      exact ⟨_, rfl⟩
    · rw [if_neg hq]
      have hprest : p ∈ rest := by
        rcases List.mem_cons.mp hp with rfl | h'
        · exact absurd hple hq
        · exact h'
      obtain ⟨e, he⟩ := ih ⟨p, hprest, hple⟩
      rw [he]
      exact ⟨e, rfl⟩

theorem parseQ_ok_eq : ∀ qs l : List ℚ, parseQ qs = .ok l → l = qs := by
  intro qs
  induction qs with
  | nil =>
    intro l h
    rw [parseQ] at h
    exact (Except.ok.inj h).symm
  | cons q rest ih =>
    intro l h
    rw [parseQ] at h
    by_cases hq : q ≤ 0
    · rw [if_pos hq] at h
      exact absurd h (by simp)
    · rw [if_neg hq] at h
      rcases hrec : parseQ rest with e | l'
      · rw [hrec] at h
        exact absurd h (by simp)
      · rw [hrec] at h
        have hl : l = q :: l' := (Except.ok.inj h).symm
        rw [hl, ih l' hrec]

theorem checkAux_some_iff :
    ∀ (qs : List ℚ) (p : ℚ), (∀ q ∈ qs, 0 < q) →
      (checkQListAux (some p) qs = .ok () ↔ List.Chain' (· ≤ ·) (p :: qs)) := by
  intro qs
  induction qs with
  | nil => intro p _; simp [checkQListAux]
  | cons q rest ih =>
    intro p hpos
    have hq0 : q ≠ 0 := ne_of_gt (hpos q (List.mem_cons_self q rest))
    have hrest : ∀ r ∈ rest, 0 < r := fun r hr => hpos r (List.mem_cons_of_mem _ hr)
    rw [checkQListAux, if_neg hq0]
    by_cases hlt : q < p
    · rw [if_pos hlt]
      simp [List.chain'_cons, not_le.mpr hlt]
    · rw [if_neg hlt, ih q hrest]
      simp [List.chain'_cons, not_lt.mp hlt]

theorem checkAux_none_iff :
    ∀ qs : List ℚ, (∀ q ∈ qs, 0 < q) →
      (checkQListAux none qs = .ok () ↔ List.Chain' (· ≤ ·) qs) := by
  intro qs hpos
  cases qs with
  | nil => simp [checkQListAux]
  | cons q rest =>
    have hq0 : q ≠ 0 := ne_of_gt (hpos q (List.mem_cons_self q rest))
    have hrest : ∀ r ∈ rest, 0 < r := fun r hr => hpos r (List.mem_cons_of_mem _ hr)
    rw [checkQListAux, if_neg hq0]
    exact checkAux_some_iff rest q hrest

/-- Claim C9: setup fails fatally exactly when a configured QVALUE is zero
or negative, when the magnitudes are not in (non-strictly) ascending order,
or when the multipole (BESSEL) mode is requested together with the GPU
mode; the checks run once, in the constructor, before any evaluation. -/
theorem c9_setup_validation :
    ∀ (bessel gpu : Bool) (qs : List ℚ),
      (∃ e, saxsSetupCheck bessel gpu qs = .error e)
        ↔ ((bessel = true ∧ gpu = true)
            ∨ (∃ q ∈ qs, q ≤ 0)
            ∨ ¬ List.Chain' (· ≤ ·) qs) := by
  intro b g qs
  rw [saxsSetupCheck]
  by_cases hbg : b && g
  · rw [if_pos hbg]
    simp only [Bool.and_eq_true] at hbg
    simp [hbg]
  · rw [if_neg hbg]
    by_cases hpos : ∀ q ∈ qs, 0 < q
    · rw [parseQ_ok_of_pos qs hpos]
      dsimp only
      rcases hch : checkQListAux none qs with e | u
      · have hchain : ¬ List.Chain' (· ≤ ·) qs := by
          intro hc
          have := (checkAux_none_iff qs hpos).mpr hc
          rw [this] at hch
          exact absurd hch (by simp)
        simp [hchain]
      · cases u
        have hchain : List.Chain' (· ≤ ·) qs := (checkAux_none_iff qs hpos).mp hch
        have hnb : ¬(b = true ∧ g = true) := by
          rintro ⟨rfl, rfl⟩
          exact hbg rfl
        have hnq : ¬∃ q ∈ qs, q ≤ 0 := by
          rintro ⟨q, hq, hle⟩
          exact absurd hle (not_le.mpr (hpos q hq))
        simp [hnb, hnq, hchain]
    · push_neg at hpos
      obtain ⟨q, hq, hle'⟩ := hpos
      have hle : q ≤ 0 := not_lt.mp (not_lt.mpr hle')
      obtain ⟨e, he⟩ := parseQ_error_of_nonpos qs ⟨q, hq, hle⟩
      rw [he]
      have : ∃ p ∈ qs, p ≤ 0 := ⟨q, hq, hle⟩
      simp [this]

theorem cpuEval_length : cpuEvalQList.length = 2 := rfl

theorem cpuEval_getD0 : cpuEvalQList.getD 0 0 = 24.5725 := by
  show cpuQvec0.modulo = 24.5725
  rw [Vec.modulo, cpuQvec0]
  rw [show ((24.5725:ℝ) * 24.5725 + 0 * 0 + 0 * 0) = 24.5725 * 24.5725 from by ring]
  exact Real.sqrt_mul_self (by norm_num)

theorem cpuEval_getD1 : cpuEvalQList.getD 1 0 = 24.5725 * Real.sqrt 2 := by
  show cpuQvec1.modulo = 24.5725 * Real.sqrt 2
  rw [Vec.modulo, cpuQvec1]
  rw [show ((24.5725:ℝ) * 24.5725 + 24.5725 * 24.5725 + 0 * 0)
      = 2 * (24.5725 * 24.5725) from by ring]
  rw [Real.sqrt_mul (by norm_num : (0:ℝ) ≤ 2), Real.sqrt_mul_self (by norm_num)]
  ring

theorem setup_ok_single : saxsSetupCheck false false [1/10] = .ok [1] := by
  have hpos : ∀ q ∈ ([1/10] : List ℚ), 0 < q := by
    intro q hq
    simp at hq
    rw [hq]
    norm_num
  have hp : parseQ [1/10] = .ok [1/10] := parseQ_ok_of_pos _ hpos
  have hc : checkQListAux none [1/10] = .ok () :=
    (checkAux_none_iff _ hpos).mpr (List.chain'_singleton _)
  rw [saxsSetupCheck, if_neg (by simp), hp]
  dsimp only
  rw [hc]
  norm_num

/-- Claim C2 (code-bug evidence): the evaluation routine does not leave the
configured scattering-vector list unchanged — with a single configured
QVALUE (stored as [1] nm⁻¹ at setup) `calculate_cpu` resizes `q_list` to
its hard-coded `numq = 2` and overwrites the entries with the magnitudes of
two hard-coded vectors. -/
theorem c2_qlist_overwritten :
    saxsSetupCheck false false [1/10] = .ok [1]
    ∧ cpuEvalQList.length = 2
    ∧ cpuEvalQList ≠ [((1 : ℚ) : ℝ)] := by
  refine ⟨setup_ok_single, cpuEval_length, ?_⟩
  intro h
  have := congrArg List.length h
  rw [cpuEval_length] at this
  simp at this

/-- Claim C10 counterexample: with configured QVALUE 1/10 (Å⁻¹) the
constructor stores the ×10 value 1 nm⁻¹, but the q value actually used by
the evaluation routines is the hard-coded magnitude 24.5725, not the
scaled user value. -/
theorem c10_counterexample :
    saxsSetupCheck false false [1/10] = .ok [1]
    ∧ cpuEvalQList.getD 0 0 = 24.5725
    ∧ (24.5725 : ℝ) ≠ ((1 : ℚ) : ℝ) := by
  refine ⟨setup_ok_single, cpuEval_getD0, ?_⟩
  norm_num

/-- Claim C10 (amended): at the end of construction every configured QVALUE
is multiplied by 10 (Å⁻¹ → nm⁻¹); however the CPU evaluation replaces
`q_list` before use with the magnitudes of two hard-coded vectors
(24.5725 and 24.5725·√2 nm⁻¹), so the Debye kernel and the
truncation-order selection use those hard-coded values, not the scaled user
values. -/
theorem c10_amended :
    (∀ (bessel gpu : Bool) (qs out : List ℚ),
        saxsSetupCheck bessel gpu qs = .ok out → out = qs.map (fun q => q * 10))
    ∧ cpuEvalQList.length = 2
    ∧ cpuEvalQList.getD 0 0 = 24.5725
    ∧ cpuEvalQList.getD 1 0 = 24.5725 * Real.sqrt 2 := by
  refine ⟨?_, cpuEval_length, cpuEval_getD0, cpuEval_getD1⟩
  intro b g qs out h
  rw [saxsSetupCheck] at h
  by_cases hbg : b && g
  · rw [if_pos hbg] at h
    exact absurd h (by simp)
  · rw [if_neg hbg] at h
    rcases hp : parseQ qs with e | ql
    · rw [hp] at h
      exact absurd h (by simp)
    · rw [hp] at h
      dsimp only at h
      rcases hc : checkQListAux none ql with e | u
      · rw [hc] at h
        exact absurd h (by simp)
      · rw [hc] at h
        have hout : out = ql.map (fun q => q * 10) := (Except.ok.inj h).symm
        rw [hout, parseQ_ok_eq qs ql hp]

/-- Witness for C10 (amended): the ×10 conversion applied to the
configured list [1/10]. -/
theorem c10_amended_witness :
    ([1] : List ℚ) = ([1/10] : List ℚ).map (fun q => q * 10) :=
  c10_amended.1 false false [1/10] [1] setup_ok_single

end SAXS

